import Mathlib

/-!
Verification of the cache-validity and snapshot-build subsystem of the
Jelastic dynamic-inventory script (src/jelastic.py).

The script is embedded shallowly: every definition below is translated from
the Python source.  Machine-level concerns are modelled as follows:
file existence and modification times become explicit parameters of
`is_cache_valid`; Python dicts become association lists with in-place
overwrite (`dictInsert`) and end-append on fresh keys, matching dict
assignment and `setdefault`; `json.dumps(data, sort_keys=True, indent=2)`
and `json.loads` become `json_format_dict`/`json_loads` over a JSON value
type restricted to the shapes the script serialises (strings, arrays,
objects); provider network calls become explicit outcome parameters.
-/

namespace Jelastic

/-! ## JSON values

The script persists its inventory and index with
`json.dumps(data, sort_keys=True, indent=2)` and reads the index back with
`json.loads`.  All data the script serialises consists of strings, arrays
and objects, so the JSON model is restricted to those three shapes.  The
parser models `json.loads` on the escape-free fragment that
`json.dumps` emits for strings of printable ASCII characters other than
the quote and the backslash. -/

inductive JValue where
  | str (s : String)
  | arr (l : List JValue)
  | obj (l : List (String × JValue))
deriving Repr

mutual

def jsize : JValue → Nat
  | .str _ => 1
  | .arr l => 1 + jsizeL l
  | .obj l => 1 + jsizeM l

def jsizeL : List JValue → Nat
  | [] => 0
  | v :: vs => 1 + jsize v + jsizeL vs

def jsizeM : List (String × JValue) → Nat
  | [] => 0
  | p :: ps => 1 + jsize p.2 + jsizeM ps

end

/-! ### Serialisation: `json.dumps(data, sort_keys=True, indent=2)`

`sort_keys=True` sorts the members of every object by key before emitting
them; `indent=2` produces one element or member per line, indented two
spaces per nesting level, with `", "`-free separators (a bare comma
followed by a newline) and `": "` after each key.  Empty containers are
emitted inline as `[]` and `{}`. -/

/-- Strict lexicographic comparison of character lists by code point:
how Python compares strings when `sorted()` orders dict keys. -/
def charLt : List Char → List Char → Bool
  | [], [] => false
  | [], _ :: _ => true
  | _ :: _, [] => false
  | a :: as, b :: bs =>
      if a.toNat < b.toNat then true
      else if b.toNat < a.toNat then false
      else charLt as bs

def strLt (a b : String) : Bool := charLt a.data b.data

def strLe (a b : String) : Bool := !strLt b a

def insertByKey (p : String × JValue) : List (String × JValue) → List (String × JValue)
  | [] => [p]
  | q :: qs => if strLe p.1 q.1 then p :: q :: qs else q :: insertByKey p qs

def sortByKey : List (String × JValue) → List (String × JValue)
  | [] => []
  | p :: ps => insertByKey p (sortByKey ps)

mutual

/-- Recursively sort the members of every object by key: the canonical
form in which `json.dumps(..., sort_keys=True)` emits a value. -/
def canon : JValue → JValue
  | .str s => .str s
  | .arr l => .arr (canonL l)
  | .obj l => .obj (sortByKey (canonM l))

def canonL : List JValue → List JValue
  | [] => []
  | v :: vs => canon v :: canonL vs

def canonM : List (String × JValue) → List (String × JValue)
  | [] => []
  | p :: ps => (p.1, canon p.2) :: canonM ps

end

def indentC (lvl : Nat) : List Char := List.replicate (2 * lvl) ' '

def quoteC (s : String) : List Char := '"' :: (s.data ++ ['"'])

mutual

/-- Pretty rendering of an (already key-sorted) value at nesting level
`lvl`, as `json.dumps(data, indent=2)` renders it. -/
def renderV (lvl : Nat) : JValue → List Char
  | .str s => quoteC s
  | .arr [] => ['[', ']']
  | .arr (v :: vs) =>
      '[' :: '\n' :: (renderItems (lvl + 1) (v :: vs) ++ '\n' :: (indentC lvl ++ [']']))
  | .obj [] => ['{', '}']
  | .obj (p :: ps) =>
      '{' :: '\n' :: (renderMembers (lvl + 1) (p :: ps) ++ '\n' :: (indentC lvl ++ ['}']))

def renderItems (lvl : Nat) : List JValue → List Char
  | [] => []
  | [v] => indentC lvl ++ renderV lvl v
  | v :: vs => indentC lvl ++ (renderV lvl v ++ ',' :: '\n' :: renderItems lvl vs)

def renderMembers (lvl : Nat) : List (String × JValue) → List Char
  | [] => []
  | [p] => indentC lvl ++ (quoteC p.1 ++ ':' :: ' ' :: renderV lvl p.2)
  | p :: ps =>
      indentC lvl ++ (quoteC p.1 ++ ':' :: ' ' :: renderV lvl p.2 ++ ',' :: '\n' :: renderMembers lvl ps)

end

mutual

/-- Compact rendering, as `json.dumps(data)` with its default
separators `", "` and `": "` and no key sorting. -/
def renderCV : JValue → List Char
  | .str s => quoteC s
  | .arr l => '[' :: (renderCItems l ++ [']'])
  | .obj l => '{' :: (renderCMembers l ++ ['}'])

def renderCItems : List JValue → List Char
  | [] => []
  | [v] => renderCV v
  | v :: vs => renderCV v ++ ',' :: ' ' :: renderCItems vs

def renderCMembers : List (String × JValue) → List Char
  | [] => []
  | [p] => quoteC p.1 ++ ':' :: ' ' :: renderCV p.2
  | p :: ps => quoteC p.1 ++ ':' :: ' ' :: renderCV p.2 ++ ',' :: ' ' :: renderCMembers ps

end

/-- `json_format_dict(data, pretty)` from the script: `pretty=True` is
`json.dumps(data, sort_keys=True, indent=2)`, the only form the script
uses; `pretty=False` is the compact unsorted `json.dumps(data)`. -/
def json_format_dict (data : JValue) (pretty : Bool) : String :=
  if pretty then ⟨renderV 0 (canon data)⟩ else ⟨renderCV data⟩

/-- `write_to_cache(data, filename)` serialises `data` with
`json_format_dict(data, True)` and overwrites the file; the file content
is modelled as the returned string. -/
def write_to_cache (data : JValue) : String :=
  json_format_dict data true

/-! ### Parsing: `json.loads` on the fragment the script emits. -/

def isWsChar (c : Char) : Bool := c = ' ' || c = '\n' || c = '\t' || c = '\r'

def skipWs (cs : List Char) : List Char := cs.dropWhile isWsChar

/-- Body of a JSON string after the opening quote, up to the closing
quote (no escape sequences: the safe fragment). -/
def parseStringBody : List Char → Option (List Char × List Char)
  | [] => none
  | c :: cs =>
      if c = '"' then some ([], cs)
      else
        match parseStringBody cs with
        | some (s, r) => some (c :: s, r)
        | none => none

mutual

def parseVal : Nat → List Char → Option (JValue × List Char)
  | 0, _ => none
  | n + 1, cs =>
      match skipWs cs with
      | '"' :: r =>
          match parseStringBody r with
          | some (s, r₂) => some (.str ⟨s⟩, r₂)
          | none => none
      | '[' :: r =>
          (match skipWs r with
           | ']' :: r₂ => some (.arr [], r₂)
           | _ =>
              match parseItems n r with
              | some (l, r₂) => some (.arr l, r₂)
              | none => none)
      | '{' :: r =>
          (match skipWs r with
           | '}' :: r₂ => some (.obj [], r₂)
           | _ =>
              match parseMembers n r with
              | some (l, r₂) => some (.obj l, r₂)
              | none => none)
      | _ => none

def parseItems : Nat → List Char → Option (List JValue × List Char)
  | 0, _ => none
  | n + 1, cs =>
      match parseVal n cs with
      | some (v, r) =>
          (match skipWs r with
           | ',' :: r₂ =>
              (match parseItems n r₂ with
               | some (l, r₃) => some (v :: l, r₃)
               | none => none)
           | ']' :: r₂ => some ([v], r₂)
           | _ => none)
      | none => none

def parseMembers : Nat → List Char → Option (List (String × JValue) × List Char)
  | 0, _ => none
  | n + 1, cs =>
      match skipWs cs with
      | '"' :: r =>
          match parseStringBody r with
          | some (k, r₁) =>
              (match skipWs r₁ with
               | ':' :: r₂ =>
                  (match parseVal n r₂ with
                   | some (v, r₃) =>
                      (match skipWs r₃ with
                       | ',' :: r₄ =>
                          (match parseMembers n r₄ with
                           | some (l, r₅) => some ((⟨k⟩, v) :: l, r₅)
                           | none => none)
                       | '}' :: r₄ => some ([(⟨k⟩, v)], r₄)
                       | _ => none)
                   | none => none)
               | _ => none)
          | none => none
      | _ => none

end

/-- `json.loads` on a whole document: parse one value and require only
whitespace to remain. -/
def json_loads (s : String) : Option JValue :=
  match parseVal (s.length + 1) s.data with
  | some (v, r) => if skipWs r = [] then some v else none
  | none => none

/-! ### Safe strings and canonical values

`json.dumps` escapes the quote, the backslash, control characters and
(with the default `ensure_ascii`) non-ASCII characters.  A character is
safe when it is emitted verbatim; every string the script handles
(domains, addresses, node ids, node types) is safe.  A value is canonical
when every object's members are strictly sorted by key — the form in
which a Python dict (whose keys are unique) is serialised and
deserialised. -/

def safeChar (c : Char) : Bool :=
  (c ≠ '"') && (c ≠ '\\') && (0x20 ≤ c.toNat) && (c.toNat ≤ 0x7e)

def safeStr (s : String) : Bool := s.data.all safeChar

mutual

def safeV : JValue → Bool
  | .str s => safeStr s
  | .arr l => safeL l
  | .obj l => safeM l

def safeL : List JValue → Bool
  | [] => true
  | v :: vs => safeV v && safeL vs

def safeM : List (String × JValue) → Bool
  | [] => true
  | p :: ps => safeStr p.1 && safeV p.2 && safeM ps

end

def sortedKeysb : List (String × JValue) → Bool
  | [] => true
  | [_] => true
  | p :: q :: r => strLt p.1 q.1 && sortedKeysb (q :: r)

mutual

def isCanonV : JValue → Bool
  | .str _ => true
  | .arr l => isCanonL l
  | .obj l => sortedKeysb l && isCanonM l

def isCanonL : List JValue → Bool
  | [] => true
  | v :: vs => isCanonV v && isCanonL vs

def isCanonM : List (String × JValue) → Bool
  | [] => true
  | p :: ps => isCanonV p.2 && isCanonM ps

end

/-! ## Cache validity

`is_cache_valid` inspects the two cache files.  File existence and the
modification time are explicit parameters; times are modelled as integer
seconds (`time()` and `os.path.getmtime` return reals, but the boundary
analysis is identical). -/

/-- `is_cache_valid(self)` from the script, with the file-system facts it
reads made explicit: whether each file exists, the modification time of
the cache file, the current time, and `cache_max_age` (the TTL). -/
def is_cache_valid (cacheExists indexExists : Bool) (mod_time current_time cache_max_age : Int) :
    Bool :=
  if cacheExists then
    if mod_time + cache_max_age > current_time then
      if indexExists then true else false
    else false
  else false

/-! ## Settings and data model

`read_settings` produces: the three `group_by_*` boolean toggles (default
true), the `container_mapping` table (an ordered key/value table), and the
SSH gateway host/port pair (defaults `localhost`/`22`).  Environments and
nodes are the JSON records returned by the provider. -/

structure Settings where
  group_by_environment_id : Bool
  group_by_node_type : Bool
  group_by_node_class : Bool
  container_mapping : List (String × String)
  jelastic_ssh_gateway : String
  jelastic_ssh_port : String
deriving Repr

/-- The `env` record of an environment: the fields the script reads. -/
structure Env where
  domain : String
  shortdomain : String
  uid : String
  status : Int
deriving Repr, DecidableEq

/-- A node record: the fields the script reads.  `address` is `None`-able. -/
structure Node where
  id : String
  address : Option String
  nodeType : String
deriving Repr, DecidableEq

/-- One element of the `infos` list returned by `getenvs`: an `env`
record plus its `nodes` list. -/
structure EnvironmentInfo where
  env : Env
  nodes : List Node
deriving Repr, DecidableEq

/-! ### Python dict model

Association lists with the update behaviour of Python dicts: assigning an
existing key overwrites in place, assigning a fresh key appends. -/

def dictGet {α : Type} : List (String × α) → String → Option α
  | [], _ => none
  | (k', v) :: rest, k => if k' = k then some v else dictGet rest k

def dictInsert {α : Type} : List (String × α) → String → α → List (String × α)
  | [], k, v => [(k, v)]
  | (k', v') :: rest, k, v =>
      if k' = k then (k', v) :: rest else (k', v') :: dictInsert rest k v

/-- Character-level prefix test: `charPrefix p s` holds when `p` is a
prefix of `s`. -/
def charPrefix : List Char → List Char → Bool
  | [], _ => true
  | _ :: _, [] => false
  | p :: ps, c :: cs => p = c && charPrefix ps cs

/-- Python's `str.startswith`: the argument is a character prefix of the
receiver. -/
def startswith (s pre : String) : Bool := charPrefix pre.data s.data

/-- `map_node_class(self, nodeType)`: collect the values of all mapping
entries whose key is a prefix of `nodeType`, in table order; return the
first, or `"unknown"` when none matches. -/
def map_node_class (container_mapping : List (String × String)) (nodeType : String) : String :=
  let hits := (container_mapping.filter (fun kv => startswith nodeType kv.1)).map Prod.snd
  match hits with
  | [] => "unknown"
  | v :: _ => v

/-! ## Groups and the inventory -/

/-- A group value inside the inventory dict: either a plain list of host
addresses, or the metadata-bearing dict shape, in which the hosts live
under the `hosts` key (a missing `hosts` key is the empty list, as
created by `setdefault`). -/
inductive Group where
  | plain (hosts : List String)
  | withMeta (hosts : List String) (meta : List (String × String))
deriving Repr, DecidableEq

def Group.hosts : Group → List String
  | .plain h => h
  | .withMeta h _ => h

def Group.pushHost : Group → String → Group
  | .plain h, a => .plain (h ++ [a])
  | .withMeta h m, a => .withMeta (h ++ [a]) m

/-- `push(self, my_dict, key, element)`: `setdefault(key, [])` then
append; when the existing value is a dict, append into its `hosts` list
instead. -/
def push (my_dict : List (String × Group)) (key element : String) : List (String × Group) :=
  match dictGet my_dict key with
  | none => my_dict ++ [(key, .plain [element])]
  | some g => dictInsert my_dict key (g.pushHost element)

/-- The inventory dict.  The `_meta` key holds the hostvars dict; because
`push` inspects the existing value with `isinstance(..., dict)`, a push
under the literal key `_meta` appends into a `hosts` list inside the
`_meta` dict (`metaHosts`) rather than creating a group.  All other keys
hold groups. -/
structure Inventory where
  hostvars : List (String × (String × String × String))
  metaHosts : List String
  groups : List (String × Group)
deriving Repr, DecidableEq

/-- `_empty_inventory()`: `{"_meta": {"hostvars": {}}}`. -/
def _empty_inventory : Inventory := ⟨[], [], []⟩

/-- `self.push(self.inventory, key, element)`: the inventory dict always
contains `_meta`, whose value is a dict, so pushing under `_meta` appends
into that dict's `hosts` list; otherwise the groups dict is extended. -/
def Inventory.pushKey (inv : Inventory) (key element : String) : Inventory :=
  if key = "_meta" then { inv with metaHosts := inv.metaHosts ++ [element] }
  else { inv with groups := push inv.groups key element }

/-- `get_node_hostvars(self, env, node)`: the
`(ansible_ssh_user, ansible_ssh_host, ansible_ssh_port)` triple. -/
def get_node_hostvars (s : Settings) (env : Env) (node : Node) : String × String × String :=
  (node.id ++ "-" ++ env.uid, s.jelastic_ssh_gateway, s.jelastic_ssh_port)

/-- The mutable state the build mutates: `self.inventory` and `self.index`
(the dict from host address to `[domain, node id]`). -/
structure BuildState where
  inventory : Inventory
  index : List (String × (String × String))
deriving Repr, DecidableEq

def emptyBuildState : BuildState := ⟨_empty_inventory, []⟩

/-- `add_node(self, env, node)`: skip when `address` is `None`; otherwise
record the index entry, push the address into the domain and shortdomain
groups unconditionally, into the node-type and node-class groups when the
respective toggle is set, and record the hostvars entry. -/
def add_node (s : Settings) (env : Env) (node : Node) (st : BuildState) : BuildState :=
  match node.address with
  | none => st
  | some dest =>
      let index := dictInsert st.index dest (env.domain, node.id)
      let inv := st.inventory.pushKey env.domain dest
      let inv := inv.pushKey env.shortdomain dest
      let inv := if s.group_by_node_type then inv.pushKey node.nodeType dest else inv
      let inv :=
        if s.group_by_node_class then
          inv.pushKey (map_node_class s.container_mapping node.nodeType) dest
        else inv
      let inv := { inv with hostvars := dictInsert inv.hostvars dest (get_node_hostvars s env node) }
      ⟨inv, index⟩

/-- `add_environment(self, environment)`: return immediately unless
`environment['env']['status'] == 1`, else add every node. -/
def add_environment (s : Settings) (st : BuildState) (e : EnvironmentInfo) : BuildState :=
  if e.env.status ≠ 1 then st
  else e.nodes.foldl (fun st n => add_node s e.env n st) st

/-- The `for environment in result['infos']` loop of `get_environments`,
run against the current state (the build adds onto whatever inventory and
index the object already holds). -/
def refresh_onto (s : Settings) (st : BuildState) (envs : List EnvironmentInfo) : BuildState :=
  envs.foldl (add_environment s) st

/-- A full build from the freshly constructed object (empty inventory and
index), as `do_api_calls_update_cache` performs on first use. -/
def build_inventory (s : Settings) (envs : List EnvironmentInfo) : BuildState :=
  refresh_onto s emptyBuildState envs

/-! ## SnapshotBuilder: `get_environments` control flow

`get_environments` logs in, fetches `getenvs`, feeds every record to
`add_environment`, and logs out in a `finally` clause.  The model takes
the outcome of the fetch as a parameter (login is assumed to have
succeeded; a failed login exits before the `try` block) and records the
provider operations performed, the resulting state, and the exception
propagating out of the method, if any. -/

inductive ProviderOp where
  | login
  | fetchEnvs
  | stderrWrite
  | logout
deriving Repr, DecidableEq

/-- The parsed response of the `getenvs` call. -/
structure ApiResponse where
  result : Int
  error : String
  infos : List EnvironmentInfo
deriving Repr

/-- Outcome of the `getenvs` HTTP round trip. -/
inductive FetchOutcome where
  | response (r : ApiResponse)
  | urlError
deriving Repr

/-- The exception propagating out of `get_environments`: the bare
`except:` handler evaluates `e.reason` on an exception class, which
raises `AttributeError`. -/
inductive PyExc where
  | attributeError
deriving Repr, DecidableEq

structure GetEnvsResult where
  ops : List ProviderOp
  state : BuildState
  exc : Option PyExc
deriving Repr

/-- `get_environments(self)` after a successful login.  On a non-zero
`result`, `fail_with_error` writes stderr and raises `SystemExit`; the
bare `except:` catches it and `e.reason` raises `AttributeError`; the
`finally` clause runs `logout` before the exception propagates.  On a
transport error the same handler path is taken.  On success the loop
feeds every record to `add_environment` and the `finally` clause runs
`logout`. -/
def get_environments (s : Settings) (st : BuildState) (f : FetchOutcome) : GetEnvsResult :=
  match f with
  | .response r =>
      if r.result ≠ 0 then
        { ops := [.login, .fetchEnvs, .stderrWrite, .logout]
          state := st
          exc := some .attributeError }
      else
        { ops := [.login, .fetchEnvs, .logout]
          state := refresh_onto s st r.infos
          exc := none }
  | .urlError =>
      { ops := [.login, .fetchEnvs, .logout]
        state := st
        exc := some .attributeError }

/-! ## HostResolver: `get_host_info` -/

/-- What `get_host_info` produces: either a printed string, or the
`AttributeError` Python raises when `self.get_node` — a method the class
never defines — is looked up on the hit path. -/
inductive HostInfoResult where
  | output (s : String)
  | attributeError (method : String)
deriving Repr, DecidableEq

/-- `get_host_info_dict_from_node(self, node)`: the body is a bare
`return`, so it returns `None` for every node. -/
def get_host_info_dict_from_node {α : Type} (node : α) : Option JValue := none

/-- `get_host_info(self)` for `--host host`, taking the in-memory state
after the constructor (index already loaded from cache when it was
empty) and the provider data a refresh would return.  The second
component counts the `do_api_calls_update_cache` calls made.  When the
address resolves, the script evaluates `self.get_node(environment,
node_id)`, a method that does not exist, raising `AttributeError`. -/
def get_host_info (s : Settings) (st : BuildState) (envs : List EnvironmentInfo) (host : String) :
    HostInfoResult × Nat :=
  match dictGet st.index host with
  | some _ => (.attributeError "get_node", 0)
  | none =>
      let st₂ := refresh_onto s st envs
      match dictGet st₂.index host with
      | none => (.output (json_format_dict (.obj []) true), 1)
      | some _ => (.attributeError "get_node", 1)

/-- `get_inventory_from_cache(self)`: the cache file is read back verbatim
and returned as text, with no re-validation. -/
def get_inventory_from_cache (fileContent : String) : String := fileContent

/-- `load_index_from_cache(self)`: the index file is read and passed to
`json.loads`. -/
def load_index_from_cache (fileContent : String) : Option JValue := json_loads fileContent

/-! ## JSON images of the persisted structures -/

def hostvarsToJson (hv : String × String × String) : JValue :=
  .obj [("ansible_ssh_user", .str hv.1), ("ansible_ssh_host", .str hv.2.1),
        ("ansible_ssh_port", .str hv.2.2)]

def Group.toJson : Group → JValue
  | .plain hosts => .arr (hosts.map .str)
  | .withMeta hosts meta =>
      .obj (("hosts", .arr (hosts.map .str)) :: meta.map (fun p => (p.1, .str p.2)))

/-- The dict `self.inventory` as a JSON value: the `_meta` entry (with its
`hostvars` dict and, when pushes under the reserved key occurred, a
`hosts` list) followed by the groups. -/
def Inventory.toJson (inv : Inventory) : JValue :=
  .obj (("_meta", .obj (("hostvars",
            .obj (inv.hostvars.map fun p => (p.1, hostvarsToJson p.2))) ::
          (if inv.metaHosts = [] then []
           else [("hosts", .arr (inv.metaHosts.map .str))]))) ::
        inv.groups.map (fun p => (p.1, p.2.toJson)))

/-- The dict `self.index` as a JSON value. -/
def indexToJson (idx : List (String × (String × String))) : JValue :=
  .obj (idx.map fun p => (p.1, .arr [.str p.2.1, .str p.2.2]))

/-! ## Predicates used by the statements -/

/-- The addresses the spec says a build must record: nodes with a
non-null address inside environments whose status is Running. -/
def runningAddr (envs : List EnvironmentInfo) (a : String) : Prop :=
  ∃ e ∈ envs, e.env.status = 1 ∧ ∃ n ∈ e.nodes, n.address = some a

/-- The address `x` appears in some group of the inventory, or in the
`hosts` list that pushes under the reserved `_meta` key create. -/
def memAnyGroup (inv : Inventory) (x : String) : Prop :=
  x ∈ inv.metaHosts ∨ ∃ p ∈ inv.groups, x ∈ p.2.hosts

/-- No pushed group key of any Running environment is the reserved
inventory key `_meta`: neither the domains, nor (when the respective
toggle is on) the node types or mapped node classes. -/
def noMetaKeys (s : Settings) (envs : List EnvironmentInfo) : Prop :=
  ∀ e ∈ envs, e.env.status = 1 →
    e.env.domain ≠ "_meta" ∧ e.env.shortdomain ≠ "_meta" ∧
    ∀ n ∈ e.nodes, n.address.isSome = true →
      (s.group_by_node_type = true → n.nodeType ≠ "_meta") ∧
      (s.group_by_node_class = true →
        map_node_class s.container_mapping n.nodeType ≠ "_meta")

/-! ## Concrete fixtures (the end-to-end scenario of the spec) -/

def demoSettings : Settings :=
  ⟨true, true, true, [("cp.app", "appserver")], "gw.example.com", "3022"⟩

def demoEnvs : List EnvironmentInfo :=
  [⟨⟨"appA", "a", "u1", 1⟩, [⟨"n1", some "10.0.0.1", "cp.app"⟩]⟩]

/-- An environment whose domain and short domain are the reserved
inventory key `_meta`. -/
def metaEnv : EnvironmentInfo := ⟨⟨"_meta", "_meta", "u1", 1⟩, [⟨"n1", some "10.0.0.1", "cp"⟩]⟩

def metaSettings : Settings := ⟨true, false, false, [], "localhost", "22"⟩

/-- The snapshot of the end-to-end scenario, as the key-sorted JSON value
the script would persist. -/
def demoSnapshotJson : JValue :=
  .obj [("_meta", .obj [("hostvars", .obj [("10.0.0.1",
            .obj [("ansible_ssh_host", .str "gw.example.com"),
                  ("ansible_ssh_port", .str "3022"),
                  ("ansible_ssh_user", .str "n1-u1")])])]),
        ("a", .arr [.str "10.0.0.1"]),
        ("appA", .arr [.str "10.0.0.1"]),
        ("appserver", .arr [.str "10.0.0.1"]),
        ("cp.app", .arr [.str "10.0.0.1"])]

/-! ## Basic lemmas on whitespace, strings and sizes -/

theorem skipWs_append_ws {ws : List Char} (h : ∀ c ∈ ws, isWsChar c = true)
    (cs : List Char) : skipWs (ws ++ cs) = skipWs cs := by
  induction ws with
  | nil => rfl
  | cons c t iht =>
      have hc : isWsChar c = true := h c (by simp)
      simp only [List.cons_append, skipWs, List.dropWhile, hc]
      exact iht (fun c hc => h c (by simp [hc]))

theorem skipWs_cons_not_ws {c : Char} (h : isWsChar c = false) (cs : List Char) :
    skipWs (c :: cs) = c :: cs := by
  simp [skipWs, List.dropWhile, h]

theorem indentC_ws (lvl : Nat) : ∀ c ∈ indentC lvl, isWsChar c = true := by
  intro c hc
  have : c = ' ' := List.eq_of_mem_replicate hc
  subst this; rfl

theorem parseStringBody_roundtrip {l : List Char} (h : '"' ∉ l) (rest : List Char) :
    parseStringBody (l ++ '"' :: rest) = some (l, rest) := by
  induction l with
  | nil => rfl
  | cons c t iht =>
      have hc : ¬ (c = '"') := by intro e; exact h (by simp [e])
      simp only [List.cons_append, parseStringBody, if_neg hc, List.append_eq]
      rw [iht (fun m => h (by simp [m]))]

theorem safeStr_no_quote {s : String} (h : safeStr s = true) : '"' ∉ s.data := by
  intro hm
  have := (List.all_eq_true.mp h) _ hm
  simp [safeChar] at this

theorem jsize_pos (v : JValue) : 1 ≤ jsize v := by
  cases v <;> simp [jsize]

/-! ### Whitespace invariance of the parsers -/

theorem parseVal_ws {ws : List Char} (h : ∀ c ∈ ws, isWsChar c = true)
    (n : Nat) (cs : List Char) : parseVal n (ws ++ cs) = parseVal n cs := by
  cases n with
  | zero => rfl
  | succ m => simp only [parseVal, skipWs_append_ws h]

theorem parseItems_ws {ws : List Char} (h : ∀ c ∈ ws, isWsChar c = true)
    (n : Nat) (cs : List Char) : parseItems n (ws ++ cs) = parseItems n cs := by
  cases n with
  | zero => rfl
  | succ m => simp only [parseItems, parseVal_ws h]

theorem parseMembers_ws {ws : List Char} (h : ∀ c ∈ ws, isWsChar c = true)
    (n : Nat) (cs : List Char) : parseMembers n (ws ++ cs) = parseMembers n cs := by
  cases n with
  | zero => rfl
  | succ m => simp only [parseMembers, skipWs_append_ws h]

/-- Every rendered value begins with a quote, an opening bracket or an
opening brace. -/
theorem renderV_head (lvl : Nat) (v : JValue) :
    ∃ c t, renderV lvl v = c :: t ∧ (c = '"' ∨ c = '[' ∨ c = '{') := by
  cases v with
  | str s => exact ⟨'"', _, rfl, Or.inl rfl⟩
  | arr l =>
      cases l with
      | nil => exact ⟨'[', _, rfl, Or.inr (Or.inl rfl)⟩
      | cons x xs => exact ⟨'[', _, rfl, Or.inr (Or.inl rfl)⟩
  | obj l =>
      cases l with
      | nil => exact ⟨'{', _, rfl, Or.inr (Or.inr rfl)⟩
      | cons p ps => exact ⟨'{', _, rfl, Or.inr (Or.inr rfl)⟩

theorem parseVal_ws1 {c : Char} (h : isWsChar c = true) (n : Nat) (cs : List Char) :
    parseVal n (c :: cs) = parseVal n cs := by
  have := @parseVal_ws [c] (by simpa using h) n cs
  simpa using this

theorem parseItems_ws1 {c : Char} (h : isWsChar c = true) (n : Nat) (cs : List Char) :
    parseItems n (c :: cs) = parseItems n cs := by
  have := @parseItems_ws [c] (by simpa using h) n cs
  simpa using this

theorem parseMembers_ws1 {c : Char} (h : isWsChar c = true) (n : Nat) (cs : List Char) :
    parseMembers n (c :: cs) = parseMembers n cs := by
  have := @parseMembers_ws [c] (by simpa using h) n cs
  simpa using this

theorem parseVal_indent (lvl n : Nat) (cs : List Char) :
    parseVal n (indentC lvl ++ cs) = parseVal n cs :=
  parseVal_ws (indentC_ws lvl) n cs

theorem skipWs_ws_close {ws : List Char} {c : Char} (h : ∀ x ∈ ws, isWsChar x = true)
    (hc : isWsChar c = false) (r : List Char) : skipWs (ws ++ c :: r) = c :: r := by
  rw [skipWs_append_ws h, skipWs_cons_not_ws hc]


theorem skipWs_cons_ws {c : Char} (h : isWsChar c = true) (cs : List Char) :
    skipWs (c :: cs) = skipWs cs := by
  simp [skipWs, List.dropWhile, h]

/-- The first character of a rendered item list, after leading
whitespace, is a quote or an opening bracket or brace. -/
theorem skipWs_renderItems_head (lvl : Nat) (x : JValue) (xs : List JValue) (B : List Char) :
    ∃ c t, skipWs (renderItems lvl (x :: xs) ++ B) = c :: t ∧
      (c = '"' ∨ c = '[' ∨ c = '{') := by
  obtain ⟨c, t, hrv, hc⟩ := renderV_head lvl x
  have hnws : isWsChar c = false := by
    rcases hc with rfl | rfl | rfl <;> decide
  cases xs with
  | nil =>
      refine ⟨c, t ++ B, ?_, hc⟩
      have he : renderItems lvl [x] ++ B = indentC lvl ++ (c :: (t ++ B)) := by
        simp [renderItems, hrv]
      rw [he, skipWs_ws_close (indentC_ws lvl) hnws]
  | cons y ys =>
      refine ⟨c, t ++ (',' :: '\n' :: (renderItems lvl (y :: ys) ++ B)), ?_, hc⟩
      have he : renderItems lvl (x :: y :: ys) ++ B
          = indentC lvl ++ (c :: (t ++ (',' :: '\n' :: (renderItems lvl (y :: ys) ++ B)))) := by
        simp [renderItems, hrv]
      rw [he, skipWs_ws_close (indentC_ws lvl) hnws]


/-- The first character of a rendered member list, after leading
whitespace, is the quote opening the first key. -/
theorem skipWs_renderMembers_head (lvl : Nat) (p : String × JValue)
    (ps : List (String × JValue)) (B : List Char) :
    ∃ t, skipWs (renderMembers lvl (p :: ps) ++ B) = '"' :: t := by
  cases ps with
  | nil =>
      refine ⟨p.1.data ++ ('"' :: (':' :: ' ' :: (renderV lvl p.2 ++ B))), ?_⟩
      have he : renderMembers lvl [p] ++ B
          = indentC lvl ++ ('"' :: (p.1.data ++ ('"' :: (':' :: ' ' :: (renderV lvl p.2 ++ B))))) := by
        simp [renderMembers, quoteC]
      rw [he, skipWs_ws_close (indentC_ws lvl) (by decide)]
  | cons q qs =>
      refine ⟨p.1.data ++ ('"' :: (':' :: ' ' :: (renderV lvl p.2 ++
        (',' :: '\n' :: (renderMembers lvl (q :: qs) ++ B))))), ?_⟩
      have he : renderMembers lvl (p :: q :: qs) ++ B
          = indentC lvl ++ ('"' :: (p.1.data ++ ('"' :: (':' :: ' ' :: (renderV lvl p.2 ++
              (',' :: '\n' :: (renderMembers lvl (q :: qs) ++ B))))))) := by
        simp [renderMembers, quoteC]
      rw [he, skipWs_ws_close (indentC_ws lvl) (by decide)]

theorem parse_render (n : Nat) :
    (∀ v lvl rest, safeV v = true → jsize v ≤ n →
        parseVal n (renderV lvl v ++ rest) = some (v, rest))
  ∧ (∀ x xs lvl ws rest, safeL (x :: xs) = true → jsizeL (x :: xs) ≤ n →
        (∀ c ∈ ws, isWsChar c = true) →
        parseItems n (renderItems lvl (x :: xs) ++ (ws ++ ']' :: rest)) = some (x :: xs, rest))
  ∧ (∀ p ps lvl ws rest, safeM (p :: ps) = true → jsizeM (p :: ps) ≤ n →
        (∀ c ∈ ws, isWsChar c = true) →
        parseMembers n (renderMembers lvl (p :: ps) ++ (ws ++ '}' :: rest)) = some (p :: ps, rest)) := by
  induction n using Nat.strong_induction_on with
  | _ n ih =>
  refine ⟨?_, ?_, ?_⟩
  · -- parseVal
    intro v lvl rest hsafe hsz
    obtain ⟨m, rfl⟩ : ∃ m, n = m + 1 := ⟨n - 1, by have := jsize_pos v; omega⟩
    cases v with
    | str s =>
        have hq : '"' ∉ s.data := safeStr_no_quote (by simpa [safeV] using hsafe)
        simp only [renderV, quoteC, List.cons_append, List.append_assoc, List.singleton_append,
          List.nil_append]
        simp only [parseVal]
        rw [skipWs_cons_not_ws (by decide)]
        simp only [parseStringBody_roundtrip hq]
    | arr l =>
        cases l with
        | nil =>
            simp only [renderV, List.cons_append, List.nil_append]
            rfl
        | cons x xs =>
            have hsafeL : safeL (x :: xs) = true := by simpa [safeV] using hsafe
            have hszL : jsizeL (x :: xs) ≤ m := by
              simp only [jsize] at hsz; omega
            simp only [renderV, List.cons_append, List.append_assoc, List.nil_append]
            simp only [parseVal]
            rw [skipWs_cons_not_ws (by decide)]
            obtain ⟨c, t, hhead, hc⟩ :=
              skipWs_renderItems_head (lvl + 1) x xs
                ('\n' :: (indentC lvl ++ ']' :: rest))
            have hrec : parseItems m ('\n' :: (renderItems (lvl + 1) (x :: xs) ++
                  ('\n' :: (indentC lvl ++ ']' :: rest)))) = some (x :: xs, rest) := by
              rw [parseItems_ws1 (by decide)]
              rw [show renderItems (lvl + 1) (x :: xs) ++ ('\n' :: (indentC lvl ++ ']' :: rest))
                  = renderItems (lvl + 1) (x :: xs) ++ (('\n' :: indentC lvl) ++ ']' :: rest)
                  from by simp]
              exact (ih m (by omega)).2.1 x xs (lvl + 1) ('\n' :: indentC lvl) rest hsafeL hszL
                (by intro a ha
                    rcases List.mem_cons.mp ha with rfl | ha
                    · rfl
                    · exact indentC_ws lvl a ha)
            rcases hc with rfl | rfl | rfl <;> simp only [skipWs_cons_ws (by decide : isWsChar '\n' = true), hhead, hrec] <;> rfl
    | obj l =>
        cases l with
        | nil =>
            simp only [renderV, List.cons_append, List.nil_append]
            rfl
        | cons p ps =>
            have hsafeM : safeM (p :: ps) = true := by simpa [safeV] using hsafe
            have hszM : jsizeM (p :: ps) ≤ m := by
              simp only [jsize] at hsz; omega
            simp only [renderV, List.cons_append, List.append_assoc, List.nil_append]
            simp only [parseVal]
            rw [skipWs_cons_not_ws (by decide)]
            obtain ⟨t, hhead⟩ :=
              skipWs_renderMembers_head (lvl + 1) p ps
                ('\n' :: (indentC lvl ++ '}' :: rest))
            have hrec : parseMembers m ('\n' :: (renderMembers (lvl + 1) (p :: ps) ++
                  ('\n' :: (indentC lvl ++ '}' :: rest)))) = some (p :: ps, rest) := by
              rw [parseMembers_ws1 (by decide)]
              rw [show renderMembers (lvl + 1) (p :: ps) ++ ('\n' :: (indentC lvl ++ '}' :: rest))
                  = renderMembers (lvl + 1) (p :: ps) ++ (('\n' :: indentC lvl) ++ '}' :: rest)
                  from by simp]
              exact (ih m (by omega)).2.2 p ps (lvl + 1) ('\n' :: indentC lvl) rest hsafeM hszM
                (by intro a ha
                    rcases List.mem_cons.mp ha with rfl | ha
                    · rfl
                    · exact indentC_ws lvl a ha)
            simp only [skipWs_cons_ws (by decide : isWsChar '\n' = true), hhead, hrec]
            rfl
  · -- parseItems
    intro x xs lvl ws rest hsafe hsz hws
    obtain ⟨m, rfl⟩ : ∃ m, n = m + 1 := ⟨n - 1, by
      have := jsize_pos x; simp only [jsizeL] at hsz ⊢; omega⟩
    have hsx : safeV x = true := by simp only [safeL, Bool.and_eq_true] at hsafe; exact hsafe.1
    have hszx : jsize x ≤ m := by simp only [jsizeL] at hsz; omega
    cases xs with
    | nil =>
        simp only [renderItems, List.append_assoc]
        simp only [parseItems]
        rw [parseVal_indent]
        simp only [(ih m (by omega)).1 x lvl (ws ++ ']' :: rest) hsx hszx]
        rw [skipWs_ws_close hws (by decide)]
        rfl
    | cons y ys =>
        have hsafeT : safeL (y :: ys) = true := by
          simp only [safeL, Bool.and_eq_true] at hsafe ⊢; exact hsafe.2
        have hszT : jsizeL (y :: ys) ≤ m := by
          have := jsize_pos x; simp only [jsizeL] at hsz ⊢; omega
        simp only [renderItems, List.append_assoc, List.cons_append]
        simp only [parseItems]
        rw [parseVal_indent]
        simp only [(ih m (by omega)).1 x lvl
            (',' :: '\n' :: (renderItems lvl (y :: ys) ++ (ws ++ ']' :: rest))) hsx hszx]
        rw [skipWs_cons_not_ws (by decide)]
        simp only [parseItems_ws1 (by decide : isWsChar '\n' = true)]
        simp only [(ih m (by omega)).2.1 y ys lvl ws rest hsafeT hszT hws]
  · -- parseMembers
    intro p ps lvl ws rest hsafe hsz hws
    obtain ⟨m, rfl⟩ : ∃ m, n = m + 1 := ⟨n - 1, by
      have := jsize_pos p.2; simp only [jsizeM] at hsz ⊢; omega⟩
    have hsafes : safeStr p.1 = true ∧ safeV p.2 = true ∧ safeM ps = true := by
      simpa [safeM, Bool.and_eq_true, and_assoc] using hsafe
    have hq : '"' ∉ p.1.data := safeStr_no_quote hsafes.1
    have hszv : jsize p.2 ≤ m := by simp only [jsizeM] at hsz; omega
    cases ps with
    | nil =>
        simp only [renderMembers, quoteC, List.cons_append, List.append_assoc, List.nil_append]
        simp only [parseMembers]
        rw [skipWs_ws_close (indentC_ws lvl) (by decide)]
        simp only [parseStringBody_roundtrip hq]
        rw [skipWs_cons_not_ws (by decide)]
        simp only [parseVal_ws1 (by decide : isWsChar ' ' = true)]
        simp only [(ih m (by omega)).1 p.2 lvl (ws ++ '}' :: rest) hsafes.2.1 hszv]
        rw [skipWs_ws_close hws (by decide)]
        rfl
    | cons q qs =>
        have hsafeT : safeM (q :: qs) = true := hsafes.2.2
        have hszT : jsizeM (q :: qs) ≤ m := by
          have := jsize_pos p.2; simp only [jsizeM] at hsz ⊢; omega
        simp only [renderMembers, quoteC, List.cons_append, List.append_assoc, List.nil_append]
        simp only [parseMembers]
        rw [skipWs_ws_close (indentC_ws lvl) (by decide)]
        simp only [parseStringBody_roundtrip hq]
        rw [skipWs_cons_not_ws (by decide)]
        simp only [parseVal_ws1 (by decide : isWsChar ' ' = true)]
        simp only [(ih m (by omega)).1 p.2 lvl
            (',' :: '\n' :: (renderMembers lvl (q :: qs) ++ (ws ++ '}' :: rest))) hsafes.2.1 hszv]
        rw [skipWs_cons_not_ws (by decide)]
        simp only [parseMembers_ws1 (by decide : isWsChar '\n' = true)]
        simp only [(ih m (by omega)).2.2 q qs lvl ws rest hsafeT hszT hws]

theorem quoteC_length (s : String) : (quoteC s).length = s.data.length + 2 := by
  simp [quoteC]

theorem indentC_length (lvl : Nat) : (indentC lvl).length = 2 * lvl := by
  simp [indentC]

/-- Every value renders to strictly more characters than its size, so a
fuel of one plus the rendered length always suffices for the parser. -/
theorem jsize_lt_length (n : Nat) :
    (∀ v lvl, jsize v ≤ n → jsize v < (renderV lvl v).length)
  ∧ (∀ x xs lvl, jsizeL (x :: xs) ≤ n →
        jsizeL (x :: xs) ≤ (renderItems lvl (x :: xs)).length)
  ∧ (∀ p ps lvl, jsizeM (p :: ps) ≤ n →
        jsizeM (p :: ps) ≤ (renderMembers lvl (p :: ps)).length) := by
  induction n using Nat.strong_induction_on with
  | _ n ih =>
  refine ⟨?_, ?_, ?_⟩
  · intro v lvl hsz
    obtain ⟨m, rfl⟩ : ∃ m, n = m + 1 := ⟨n - 1, by have := jsize_pos v; omega⟩
    cases v with
    | str s => simp [renderV, quoteC_length, jsize]
    | arr l =>
        cases l with
        | nil => simp [renderV, jsize, jsizeL]
        | cons x xs =>
            have hszL : jsizeL (x :: xs) ≤ m := by simp only [jsize] at hsz; omega
            have hit := (ih m (by omega)).2.1 x xs (lvl + 1) hszL
            simp only [renderV, jsize, List.length_cons, List.length_append,
              indentC_length, List.length_singleton]
            omega
    | obj l =>
        cases l with
        | nil => simp [renderV, jsize, jsizeM]
        | cons p ps =>
            have hszM : jsizeM (p :: ps) ≤ m := by simp only [jsize] at hsz; omega
            have hit := (ih m (by omega)).2.2 p ps (lvl + 1) hszM
            simp only [renderV, jsize, List.length_cons, List.length_append,
              indentC_length, List.length_singleton]
            omega
  · intro x xs lvl hsz
    obtain ⟨m, rfl⟩ : ∃ m, n = m + 1 := ⟨n - 1, by
      have := jsize_pos x; simp only [jsizeL] at hsz ⊢; omega⟩
    have hszx : jsize x ≤ m := by simp only [jsizeL] at hsz; omega
    have hvx := (ih m (by omega)).1 x lvl hszx
    cases xs with
    | nil =>
        simp only [renderItems, jsizeL, List.length_append, indentC_length]
        omega
    | cons y ys =>
        have hszT : jsizeL (y :: ys) ≤ m := by
          have := jsize_pos x; simp only [jsizeL] at hsz ⊢; omega
        have hit := (ih m (by omega)).2.1 y ys lvl hszT
        simp only [renderItems, jsizeL, List.length_append, indentC_length,
          List.length_cons] at hit ⊢
        omega
  · intro p ps lvl hsz
    obtain ⟨m, rfl⟩ : ∃ m, n = m + 1 := ⟨n - 1, by
      have := jsize_pos p.2; simp only [jsizeM] at hsz ⊢; omega⟩
    have hszv : jsize p.2 ≤ m := by simp only [jsizeM] at hsz; omega
    have hvv := (ih m (by omega)).1 p.2 lvl hszv
    cases ps with
    | nil =>
        simp only [renderMembers, jsizeM, List.length_append, indentC_length,
          quoteC_length, List.length_cons]
        omega
    | cons q qs =>
        have hszT : jsizeM (q :: qs) ≤ m := by
          have := jsize_pos p.2; simp only [jsizeM] at hsz ⊢; omega
        have hit := (ih m (by omega)).2.2 q qs lvl hszT
        simp only [renderMembers, jsizeM, List.length_append, indentC_length,
          quoteC_length, List.length_cons] at hit ⊢
        omega

/-- Parsing a rendered safe value back recovers the value. -/
theorem json_loads_renderV (v : JValue) (hs : safeV v = true) :
    json_loads (⟨renderV 0 v⟩ : String) = some v := by
  have hlen : jsize v < (renderV 0 v).length := (jsize_lt_length (jsize v)).1 v 0 le_rfl
  have hparse := (parse_render ((renderV 0 v).length + 1)).1 v 0 [] hs (by omega)
  rw [List.append_nil] at hparse
  simp only [json_loads]
  rw [show ((⟨renderV 0 v⟩ : String).length = (renderV 0 v).length) from rfl]
  rw [hparse]
  rfl


/-! ### Canonical values are fixed by `canon`, and `canon` is invariant
under reordering of object members with distinct keys. -/

theorem charLt_asymm : ∀ a b : List Char, charLt a b = true → charLt b a = false
  | [], [] => by simp [charLt]
  | [], _ :: _ => by simp [charLt]
  | _ :: _, [] => by simp [charLt]
  | x :: xs, y :: ys => by
      by_cases h1 : x.toNat < y.toNat
      · intro _
        simp [charLt, h1, Nat.lt_asymm h1]
      · by_cases h2 : y.toNat < x.toNat
        · simp [charLt, h1, h2]
        · intro h
          have hrec := charLt_asymm xs ys
          simp only [charLt, if_neg h1, if_neg h2] at h ⊢
          exact hrec h

theorem charLt_eq_of_not : ∀ a b : List Char, charLt a b = false → charLt b a = false → a = b
  | [], [] => by intro _ _; rfl
  | [], _ :: _ => by simp [charLt]
  | _ :: _, [] => by simp [charLt]
  | x :: xs, y :: ys => by
      intro h1 h2
      by_cases hxy : x.toNat < y.toNat
      · simp [charLt, hxy] at h1
      · by_cases hyx : y.toNat < x.toNat
        · simp [charLt, hyx] at h2
        · have hn : x.toNat = y.toNat := by omega
          have hx : x = y := Char.ext (UInt32.ext hn)
          subst hx
          simp only [charLt, if_neg hxy, if_neg hyx] at h1 h2
          rw [charLt_eq_of_not xs ys h1 h2]

theorem charLt_trans :
    ∀ a b c : List Char, charLt a b = true → charLt b c = true → charLt a c = true
  | [], b, [] => by cases b <;> simp [charLt]
  | [], _, _ :: _ => by intro _ _; simp [charLt]
  | x :: xs, b, [] => by cases b <;> simp [charLt]
  | x :: xs, [], z :: zs => by simp [charLt]
  | x :: xs, y :: ys, z :: zs => by
      intro h1 h2
      by_cases hxy : x.toNat < y.toNat
      · by_cases hyz : y.toNat < z.toNat
        · simp [charLt, show x.toNat < z.toNat by omega]
        · by_cases hzy : z.toNat < y.toNat
          · simp [charLt, hyz, hzy] at h2
          · simp [charLt, show x.toNat < z.toNat by omega]
      · by_cases hyx : y.toNat < x.toNat
        · simp [charLt, hxy, hyx] at h1
        · by_cases hyz : y.toNat < z.toNat
          · simp [charLt, show x.toNat < z.toNat by omega]
          · by_cases hzy : z.toNat < y.toNat
            · simp [charLt, hyz, hzy] at h2
            · simp only [charLt, if_neg hxy, if_neg hyx] at h1
              simp only [charLt, if_neg hyz, if_neg hzy] at h2
              simp only [charLt, if_neg (show ¬ x.toNat < z.toNat by omega),
                if_neg (show ¬ z.toNat < x.toNat by omega)]
              exact charLt_trans xs ys zs h1 h2

theorem strLe_iff {a b : String} : strLe a b = true ↔ strLt b a = false := by
  simp [strLe]

theorem strLe_of_strLt {a b : String} (h : strLt a b = true) : strLe a b = true :=
  strLe_iff.mpr (charLt_asymm a.data b.data h)

theorem strLe_total {a b : String} (h : strLe a b = false) : strLe b a = true := by
  have hlt : strLt b a = true := by
    simpa [strLe] using h
  exact strLe_iff.mpr (charLt_asymm b.data a.data hlt)

theorem strLe_antisymm {a b : String} (h1 : strLe a b = true) (h2 : strLe b a = true) :
    a = b := by
  have hdata : b.data = a.data :=
    charLt_eq_of_not b.data a.data (strLe_iff.mp h1) (strLe_iff.mp h2)
  exact (congrArg String.mk hdata).symm

theorem strLe_trans {a b c : String} (h1 : strLe a b = true) (h2 : strLe b c = true) :
    strLe a c = true := by
  have hba : charLt b.data a.data = false := strLe_iff.mp h1
  have hcb : charLt c.data b.data = false := strLe_iff.mp h2
  refine strLe_iff.mpr ?_
  by_contra hc
  have hca : charLt c.data a.data = true := by
    cases h : charLt c.data a.data with
    | true => rfl
    | false => exact absurd h hc
  cases hbc : charLt b.data c.data with
  | true =>
      have : charLt b.data a.data = true := charLt_trans b.data c.data a.data hbc hca
      rw [this] at hba
      exact Bool.true_eq_false.mp hba
  | false =>
      have heq : b.data = c.data := charLt_eq_of_not b.data c.data hbc hcb
      rw [← heq] at hca
      rw [hca] at hba
      exact Bool.true_eq_false.mp hba

theorem sortedKeysb_tail {p : String × JValue} {l : List (String × JValue)}
    (h : sortedKeysb (p :: l) = true) : sortedKeysb l = true := by
  cases l with
  | nil => rfl
  | cons q r =>
      simp only [sortedKeysb, Bool.and_eq_true] at h
      exact h.2

theorem sortByKey_id : ∀ {l : List (String × JValue)}, sortedKeysb l = true → sortByKey l = l
  | [], _ => rfl
  | [p], _ => rfl
  | p :: q :: r, h => by
      have h1 : strLt p.1 q.1 = true := by
        simp only [sortedKeysb, Bool.and_eq_true] at h
        exact h.1
      have ht : sortByKey (q :: r) = q :: r := sortByKey_id (sortedKeysb_tail h)
      simp only [sortByKey] at ht ⊢
      rw [ht]
      simp [insertByKey, strLe_of_strLt h1]

theorem canon_id (n : Nat) :
    (∀ v, jsize v ≤ n → isCanonV v = true → canon v = v)
  ∧ (∀ l, jsizeL l ≤ n → isCanonL l = true → canonL l = l)
  ∧ (∀ l, jsizeM l ≤ n → isCanonM l = true → canonM l = l) := by
  induction n using Nat.strong_induction_on with
  | _ n ih =>
  refine ⟨?_, ?_, ?_⟩
  · intro v hsz hc
    obtain ⟨m, rfl⟩ : ∃ m, n = m + 1 := ⟨n - 1, by have := jsize_pos v; omega⟩
    cases v with
    | str s => rfl
    | arr l =>
        have : canonL l = l := (ih m (by omega)).2.1 l
          (by simp only [jsize] at hsz; omega) (by simpa [isCanonV] using hc)
        simp [canon, this]
    | obj l =>
        simp only [isCanonV, Bool.and_eq_true] at hc
        have : canonM l = l := (ih m (by omega)).2.2 l
          (by simp only [jsize] at hsz; omega) hc.2
        simp [canon, this, sortByKey_id hc.1]
  · intro l hsz hc
    cases l with
    | nil => rfl
    | cons v vs =>
        simp only [isCanonL, Bool.and_eq_true] at hc
        have h1 : canon v = v := (ih (jsize v) (by
            have := jsize_pos v; simp only [jsizeL] at hsz; omega)).1 v le_rfl hc.1
        have h2 : canonL vs = vs := by
          rcases Nat.eq_zero_or_pos n with rfl | hn
          · have := jsize_pos v; simp only [jsizeL] at hsz; omega
          · exact (ih (n - 1) (by omega)).2.1 vs
              (by have := jsize_pos v; simp only [jsizeL] at hsz; omega) hc.2
        simp [canonL, h1, h2]
  · intro l hsz hc
    cases l with
    | nil => rfl
    | cons p ps =>
        simp only [isCanonM, Bool.and_eq_true] at hc
        have h1 : canon p.2 = p.2 := (ih (jsize p.2) (by
            have := jsize_pos p.2; simp only [jsizeM] at hsz; omega)).1 p.2 le_rfl hc.1
        have h2 : canonM ps = ps := by
          rcases Nat.eq_zero_or_pos n with rfl | hn
          · have := jsize_pos p.2; simp only [jsizeM] at hsz; omega
          · exact (ih (n - 1) (by omega)).2.2 ps
              (by have := jsize_pos p.2; simp only [jsizeM] at hsz; omega) hc.2
        simp [canonM, h1, h2]


theorem insertByKey_perm (p : String × JValue) :
    ∀ l : List (String × JValue), (insertByKey p l).Perm (p :: l)
  | [] => List.Perm.refl _
  | q :: qs => by
      by_cases hle : strLe p.1 q.1 = true
      · simp [insertByKey, hle]
      · simp only [insertByKey, hle, if_false]
        exact ((insertByKey_perm p qs).cons q).trans (List.Perm.swap p q qs)

theorem sortByKey_perm : ∀ l : List (String × JValue), (sortByKey l).Perm l
  | [] => List.Perm.refl _
  | p :: ps => by
      simp only [sortByKey]
      exact (insertByKey_perm p (sortByKey ps)).trans ((sortByKey_perm ps).cons p)

theorem mem_insertByKey {x p : String × JValue} {l : List (String × JValue)}
    (h : x ∈ insertByKey p l) : x = p ∨ x ∈ l := by
  have := (insertByKey_perm p l).mem_iff.mp h
  simpa using this

theorem insertByKey_sorted {p : String × JValue} :
    ∀ {l : List (String × JValue)}, l.Pairwise (fun a b => strLe a.1 b.1 = true) →
      (insertByKey p l).Pairwise (fun a b => strLe a.1 b.1 = true)
  | [], _ => by simp [insertByKey]
  | q :: qs, h => by
      rcases List.pairwise_cons.mp h with ⟨hq, hqs⟩
      by_cases hle : strLe p.1 q.1 = true
      · simp only [insertByKey, hle, if_true]
        refine List.pairwise_cons.mpr ⟨?_, h⟩
        intro x hx
        rcases List.mem_cons.mp hx with rfl | hx
        · exact hle
        · exact strLe_trans hle (hq x hx)
      · simp only [insertByKey, hle, if_false]
        refine List.pairwise_cons.mpr ⟨?_, insertByKey_sorted hqs⟩
        intro x hx
        have hle' : strLe p.1 q.1 = false := by
          simpa using hle
        rcases mem_insertByKey hx with rfl | hx
        · exact strLe_total hle'
        · exact hq x hx

theorem sortByKey_sorted : ∀ l : List (String × JValue),
    (sortByKey l).Pairwise (fun a b => strLe a.1 b.1 = true)
  | [] => by simp [sortByKey]
  | p :: ps => by
      simp only [sortByKey]
      exact insertByKey_sorted (sortByKey_sorted ps)

/-- Two sorted member lists that are permutations of each other, with
distinct keys, are equal. -/
theorem perm_sorted_eq : ∀ {l₁ l₂ : List (String × JValue)}, l₁.Perm l₂ →
    l₁.Pairwise (fun a b => strLe a.1 b.1 = true) →
    l₂.Pairwise (fun a b => strLe a.1 b.1 = true) →
    (l₁.map Prod.fst).Nodup → l₁ = l₂
  | [], l₂, hp, _, _, _ => (hp.nil_eq).symm ▸ rfl
  | a :: t₁, l₂, hp, h₁, h₂, hnd => by
      cases l₂ with
      | nil => exact absurd hp.symm (by simp)
      | cons b t₂ =>
          rcases List.pairwise_cons.mp h₁ with ⟨ha, ht₁⟩
          rcases List.pairwise_cons.mp h₂ with ⟨hb, ht₂⟩
          have hmem : a ∈ b :: t₂ := hp.mem_iff.mp (by simp)
          have hab : a = b := by
            rcases List.mem_cons.mp hmem with h | h
            · exact h
            · -- a occurs in the tail of l₂, so b.1 ≤ a.1; b occurs in l₁.
              have h1 : strLe b.1 a.1 = true := hb a h
              have hbmem : b ∈ a :: t₁ := hp.symm.mem_iff.mp (by simp)
              rcases List.mem_cons.mp hbmem with h | hbt
              · exact h.symm
              · have h2 : strLe a.1 b.1 = true := ha b hbt
                have hkey : a.1 = b.1 := strLe_antisymm h2 h1
                -- distinct keys in l₁ rule this out
                exfalso
                have : b.1 ∈ t₁.map Prod.fst := List.mem_map_of_mem Prod.fst hbt
                rw [← hkey] at this
                exact (List.nodup_cons.mp (by simpa using hnd)).1 this
          subst hab
          have := perm_sorted_eq hp.cons_inv ht₁ ht₂
            (List.nodup_cons.mp (by simpa using hnd)).2
          rw [this]

/-- Reordering the members of an object (with distinct keys) does not
change its canonical form. -/
theorem canon_obj_perm {l₁ l₂ : List (String × JValue)} (hp : l₁.Perm l₂)
    (hnd : (l₁.map Prod.fst).Nodup) : canon (.obj l₁) = canon (.obj l₂) := by
  have hmap : ∀ l : List (String × JValue),
      canonM l = l.map (fun p => (p.1, canon p.2)) := by
    intro l
    induction l with
    | nil => rfl
    | cons p ps iht => simp [canonM, iht]
  have hpc : (canonM l₁).Perm (canonM l₂) := by
    rw [hmap, hmap]
    exact hp.map _
  have hkeys : ((sortByKey (canonM l₁)).map Prod.fst).Nodup := by
    have h1 : ((canonM l₁).map Prod.fst).Nodup := by
      rw [hmap]
      simpa [Function.comp] using hnd
    exact ((sortByKey_perm (canonM l₁)).map Prod.fst).nodup_iff.mpr h1
  have hfull : (sortByKey (canonM l₁)).Perm (sortByKey (canonM l₂)) :=
    ((sortByKey_perm (canonM l₁)).trans hpc).trans (sortByKey_perm (canonM l₂)).symm
  have := perm_sorted_eq hfull (sortByKey_sorted (canonM l₁)) (sortByKey_sorted (canonM l₂)) hkeys
  simp [canon, this]

/-! ## Dict and push lemmas -/

theorem dictGet_dictInsert_self {α : Type} (d : List (String × α)) (k : String) (v : α) :
    dictGet (dictInsert d k v) k = some v := by
  induction d with
  | nil => simp [dictInsert, dictGet]
  | cons p rest iht =>
      by_cases h : p.1 = k
      · simp [dictInsert, dictGet, h]
      · simp [dictInsert, dictGet, h, iht]

theorem dictGet_dictInsert_ne {α : Type} (d : List (String × α)) (k k₂ : String) (v : α)
    (h : k₂ ≠ k) : dictGet (dictInsert d k v) k₂ = dictGet d k₂ := by
  induction d with
  | nil => simp [dictInsert, dictGet, Ne.symm h]
  | cons p rest iht =>
      by_cases hp : p.1 = k
      · subst hp
        simp [dictInsert, dictGet, Ne.symm h]
      · simp [dictInsert, dictGet, hp, iht]

theorem dictGet_isSome_insert {α : Type} (d : List (String × α)) (k x : String) (v : α) :
    dictGet (dictInsert d k v) x ≠ none ↔ (dictGet d x ≠ none ∨ x = k) := by
  by_cases hx : x = k
  · subst hx; simp [dictGet_dictInsert_self]
  · simp [dictGet_dictInsert_ne d k x v hx, hx]

theorem Group.pushHost_hosts (g : Group) (a : String) :
    (g.pushHost a).hosts = g.hosts ++ [a] := by
  cases g <;> rfl

theorem push_hit {d : List (String × Group)} {key : String} {g : Group} (a : String)
    (h : dictGet d key = some g) : push d key a = dictInsert d key (g.pushHost a) := by
  simp [push, h]

theorem push_miss {d : List (String × Group)} {key : String} (a : String)
    (h : dictGet d key = none) : push d key a = d ++ [(key, .plain [a])] := by
  simp [push, h]

theorem mem_groups_push (d : List (String × Group)) (key a x : String) :
    (∃ p ∈ push d key a, x ∈ p.2.hosts) ↔ ((∃ p ∈ d, x ∈ p.2.hosts) ∨ x = a) := by
  induction d with
  | nil =>
      simp [push, dictGet, Group.hosts]
  | cons q rest iht =>
      by_cases hq : q.1 = key
      · subst hq
        have hpush : push (q :: rest) q.1 a = (q.1, q.2.pushHost a) :: rest := by
          simp [push, dictGet, dictInsert]
        rw [hpush]
        clear iht
        simp only [List.exists_mem_cons_iff, Group.pushHost_hosts, List.mem_append,
          List.mem_singleton]
        generalize (∃ p ∈ rest, x ∈ p.2.hosts) = E
        tauto
      · have hstep : push (q :: rest) key a = q :: push rest key a := by
          cases hrest : dictGet rest key with
          | none =>
              rw [push_miss a (by simp [dictGet, hq, hrest]),
                push_miss a hrest]
              simp
          | some g =>
              rw [push_hit a (show dictGet (q :: rest) key = some g by
                    simp [dictGet, hq, hrest]),
                push_hit a hrest]
              simp [dictInsert, hq]
        rw [hstep]
        simp only [List.exists_mem_cons_iff]
        rw [iht]
        generalize (∃ p ∈ rest, x ∈ p.2.hosts) = E
        tauto


/-! ## Inventory membership through `pushKey`, `add_node` and the build -/

theorem pushKey_hostvars (inv : Inventory) (key a : String) :
    (inv.pushKey key a).hostvars = inv.hostvars := by
  unfold Inventory.pushKey
  split <;> rfl

theorem ite_pushKey_hostvars (b : Bool) (inv : Inventory) (key a : String) :
    (if b then inv.pushKey key a else inv).hostvars = inv.hostvars := by
  cases b <;> simp [pushKey_hostvars]

theorem memAnyGroup_set_hostvars (inv : Inventory)
    (h : List (String × (String × String × String))) (x : String) :
    memAnyGroup { inv with hostvars := h } x ↔ memAnyGroup inv x := Iff.rfl

theorem memAnyGroup_pushKey (inv : Inventory) (key a x : String) :
    memAnyGroup (inv.pushKey key a) x ↔ (memAnyGroup inv x ∨ x = a) := by
  by_cases h : key = "_meta"
  · subst h
    have hpk : Inventory.pushKey inv "_meta" a = { inv with metaHosts := inv.metaHosts ++ [a] } := by
      simp [Inventory.pushKey]
    rw [hpk]
    simp only [memAnyGroup, List.mem_append, List.mem_singleton]
    generalize (∃ p ∈ inv.groups, x ∈ p.2.hosts) = E
    tauto
  · have hpk : Inventory.pushKey inv key a = { inv with groups := push inv.groups key a } := by
      simp [Inventory.pushKey, h]
    rw [hpk]
    simp only [memAnyGroup]
    rw [mem_groups_push]
    generalize (∃ p ∈ inv.groups, x ∈ p.2.hosts) = E
    tauto

theorem memAnyGroup_ite_pushKey (b : Bool) (inv : Inventory) (key a x : String) :
    memAnyGroup (if b then inv.pushKey key a else inv) x ↔
      (memAnyGroup inv x ∨ (b = true ∧ x = a)) := by
  cases b <;> simp [memAnyGroup_pushKey]

theorem add_node_mem (s : Settings) (env : Env) (node : Node) (st : BuildState) (x : String) :
    (dictGet (add_node s env node st).index x ≠ none ↔
        (dictGet st.index x ≠ none ∨ node.address = some x))
  ∧ (dictGet (add_node s env node st).inventory.hostvars x ≠ none ↔
        (dictGet st.inventory.hostvars x ≠ none ∨ node.address = some x))
  ∧ (memAnyGroup (add_node s env node st).inventory x ↔
        (memAnyGroup st.inventory x ∨ node.address = some x)) := by
  cases haddr : node.address with
  | none => simp [add_node, haddr]
  | some dest =>
      refine ⟨?_, ?_, ?_⟩
      · simp only [add_node, haddr]
        rw [dictGet_isSome_insert]
        simp only [Option.some.injEq]
        tauto
      · simp only [add_node, haddr, ite_pushKey_hostvars, pushKey_hostvars]
        rw [dictGet_isSome_insert]
        simp only [Option.some.injEq]
        tauto
      · simp only [add_node, haddr, memAnyGroup_set_hostvars, memAnyGroup_ite_pushKey,
          memAnyGroup_pushKey, Option.some.injEq]
        generalize memAnyGroup st.inventory x = E
        tauto

theorem fold_nodes_mem (s : Settings) (env : Env) :
    ∀ (nodes : List Node) (st : BuildState) (x : String),
    (dictGet (nodes.foldl (fun st n => add_node s env n st) st).index x ≠ none ↔
        (dictGet st.index x ≠ none ∨ ∃ n ∈ nodes, n.address = some x))
  ∧ (dictGet (nodes.foldl (fun st n => add_node s env n st) st).inventory.hostvars x ≠ none ↔
        (dictGet st.inventory.hostvars x ≠ none ∨ ∃ n ∈ nodes, n.address = some x))
  ∧ (memAnyGroup (nodes.foldl (fun st n => add_node s env n st) st).inventory x ↔
        (memAnyGroup st.inventory x ∨ ∃ n ∈ nodes, n.address = some x)) := by
  intro nodes
  induction nodes with
  | nil => simp
  | cons n ns iht =>
      intro st x
      simp only [List.foldl_cons, List.exists_mem_cons_iff]
      refine ⟨?_, ?_, ?_⟩
      · rw [(iht (add_node s env n st) x).1, (add_node_mem s env n st x).1]
        tauto
      · rw [(iht (add_node s env n st) x).2.1, (add_node_mem s env n st x).2.1]
        tauto
      · rw [(iht (add_node s env n st) x).2.2, (add_node_mem s env n st x).2.2]
        tauto

theorem add_environment_mem (s : Settings) (e : EnvironmentInfo) (st : BuildState) (x : String) :
    (dictGet (add_environment s st e).index x ≠ none ↔
        (dictGet st.index x ≠ none ∨ (e.env.status = 1 ∧ ∃ n ∈ e.nodes, n.address = some x)))
  ∧ (dictGet (add_environment s st e).inventory.hostvars x ≠ none ↔
        (dictGet st.inventory.hostvars x ≠ none ∨
          (e.env.status = 1 ∧ ∃ n ∈ e.nodes, n.address = some x)))
  ∧ (memAnyGroup (add_environment s st e).inventory x ↔
        (memAnyGroup st.inventory x ∨
          (e.env.status = 1 ∧ ∃ n ∈ e.nodes, n.address = some x))) := by
  by_cases hst : e.env.status = 1
  · have hred : add_environment s st e = e.nodes.foldl (fun st n => add_node s e.env n st) st := by
      simp [add_environment, hst]
    rw [hred]
    have hf := fold_nodes_mem s e.env e.nodes st x
    refine ⟨?_, ?_, ?_⟩
    · rw [hf.1]; simp [hst]
    · rw [hf.2.1]; simp [hst]
    · rw [hf.2.2]; simp [hst]
  · simp [add_environment, hst]

theorem refresh_onto_mem (s : Settings) :
    ∀ (envs : List EnvironmentInfo) (st : BuildState) (x : String),
    (dictGet (refresh_onto s st envs).index x ≠ none ↔
        (dictGet st.index x ≠ none ∨ runningAddr envs x))
  ∧ (dictGet (refresh_onto s st envs).inventory.hostvars x ≠ none ↔
        (dictGet st.inventory.hostvars x ≠ none ∨ runningAddr envs x))
  ∧ (memAnyGroup (refresh_onto s st envs).inventory x ↔
        (memAnyGroup st.inventory x ∨ runningAddr envs x)) := by
  intro envs
  induction envs with
  | nil => simp [refresh_onto, runningAddr]
  | cons e es iht =>
      intro st x
      have hcons : refresh_onto s st (e :: es) = refresh_onto s (add_environment s st e) es := rfl
      rw [hcons]
      have hrun : runningAddr (e :: es) x ↔
          ((e.env.status = 1 ∧ ∃ n ∈ e.nodes, n.address = some x) ∨ runningAddr es x) := by
        simp only [runningAddr, List.exists_mem_cons_iff]
      have hae := add_environment_mem s e st x
      refine ⟨?_, ?_, ?_⟩
      · exact ((iht (add_environment s st e) x).1.trans
          ((or_congr hae.1 Iff.rfl).trans (or_assoc.trans (or_congr Iff.rfl hrun.symm))))
      · exact ((iht (add_environment s st e) x).2.1.trans
          ((or_congr hae.2.1 Iff.rfl).trans (or_assoc.trans (or_congr Iff.rfl hrun.symm))))
      · exact ((iht (add_environment s st e) x).2.2.trans
          ((or_congr hae.2.2 Iff.rfl).trans (or_assoc.trans (or_congr Iff.rfl hrun.symm))))



/-! ## When no pushed key is the reserved `_meta`, the meta hosts list
stays empty -/

theorem pushKey_metaHosts_ne {key : String} (h : key ≠ "_meta") (inv : Inventory) (a : String) :
    (inv.pushKey key a).metaHosts = inv.metaHosts := by
  simp [Inventory.pushKey, h]

theorem ite_pushKey_metaHosts {key : String} (b : Bool) (h : b = true → key ≠ "_meta")
    (inv : Inventory) (a : String) :
    (if b then inv.pushKey key a else inv).metaHosts = inv.metaHosts := by
  cases b with
  | false => rfl
  | true => simpa using pushKey_metaHosts_ne (h rfl) inv a

theorem metaHosts_set_hostvars (inv : Inventory)
    (h : List (String × (String × String × String))) :
    ({ inv with hostvars := h }).metaHosts = inv.metaHosts := rfl

/-- A node whose pushed keys all differ from `_meta` leaves the meta
hosts list unchanged. -/
theorem add_node_metaHosts (s : Settings) (env : Env) (node : Node) (st : BuildState)
    (hyps : node.address.isSome = true →
      env.domain ≠ "_meta" ∧ env.shortdomain ≠ "_meta" ∧
      (s.group_by_node_type = true → node.nodeType ≠ "_meta") ∧
      (s.group_by_node_class = true →
        map_node_class s.container_mapping node.nodeType ≠ "_meta")) :
    (add_node s env node st).inventory.metaHosts = st.inventory.metaHosts := by
  cases haddr : node.address with
  | none => simp [add_node, haddr]
  | some dest =>
      obtain ⟨hdom, hshort, htype, hclass⟩ := hyps (by simp [haddr])
      simp only [add_node, haddr]
      rw [metaHosts_set_hostvars, ite_pushKey_metaHosts _ hclass,
        ite_pushKey_metaHosts _ htype, pushKey_metaHosts_ne hshort,
        pushKey_metaHosts_ne hdom]

theorem fold_nodes_metaHosts (s : Settings) (env : Env)
    (hdom : env.domain ≠ "_meta") (hshort : env.shortdomain ≠ "_meta") :
    ∀ (nodes : List Node) (st : BuildState),
    (∀ n ∈ nodes, n.address.isSome = true →
      (s.group_by_node_type = true → n.nodeType ≠ "_meta") ∧
      (s.group_by_node_class = true →
        map_node_class s.container_mapping n.nodeType ≠ "_meta")) →
    (nodes.foldl (fun st n => add_node s env n st) st).inventory.metaHosts
      = st.inventory.metaHosts := by
  intro nodes
  induction nodes with
  | nil => intro st _; rfl
  | cons n ns iht =>
      intro st hyp
      simp only [List.foldl_cons]
      rw [iht (add_node s env n st) (fun n hn ha => hyp n (by simp [hn]) ha),
        add_node_metaHosts s env n st
          (fun ha => ⟨hdom, hshort, (hyp n (by simp) ha).1, (hyp n (by simp) ha).2⟩)]

theorem add_environment_metaHosts (s : Settings) (e : EnvironmentInfo) (st : BuildState)
    (hyp : e.env.status = 1 →
      e.env.domain ≠ "_meta" ∧ e.env.shortdomain ≠ "_meta" ∧
      ∀ n ∈ e.nodes, n.address.isSome = true →
        (s.group_by_node_type = true → n.nodeType ≠ "_meta") ∧
        (s.group_by_node_class = true →
          map_node_class s.container_mapping n.nodeType ≠ "_meta")) :
    (add_environment s st e).inventory.metaHosts = st.inventory.metaHosts := by
  by_cases hst : e.env.status = 1
  · obtain ⟨hdom, hshort, hnodes⟩ := hyp hst
    have hred : add_environment s st e
        = e.nodes.foldl (fun st n => add_node s e.env n st) st := by
      simp [add_environment, hst]
    rw [hred, fold_nodes_metaHosts s e.env hdom hshort e.nodes st hnodes]
  · simp [add_environment, hst]

theorem refresh_onto_metaHosts (s : Settings) :
    ∀ (envs : List EnvironmentInfo) (st : BuildState), noMetaKeys s envs →
    (refresh_onto s st envs).inventory.metaHosts = st.inventory.metaHosts := by
  intro envs
  induction envs with
  | nil => intro st _; rfl
  | cons e es iht =>
      intro st hyp
      have hcons : refresh_onto s st (e :: es) = refresh_onto s (add_environment s st e) es := rfl
      rw [hcons, iht (add_environment s st e) (fun e₂ he₂ => hyp e₂ (by simp [he₂])),
        add_environment_metaHosts s e st (hyp e (by simp))]


theorem dictGet_append_single_self {α : Type} (d : List (String × α)) (k : String) (v : α)
    (h : dictGet d k = none) : dictGet (d ++ [(k, v)]) k = some v := by
  induction d with
  | nil => simp [dictGet]
  | cons p rest iht =>
      by_cases hp : p.1 = k
      · simp [dictGet, hp] at h
      · simp only [dictGet, hp, if_neg hp, List.cons_append] at h ⊢
        exact iht h

theorem dictGet_append_single_ne {α : Type} (d : List (String × α)) (k k₂ : String) (v : α)
    (h : k₂ ≠ k) : dictGet (d ++ [(k, v)]) k₂ = dictGet d k₂ := by
  induction d with
  | nil => simp [dictGet, Ne.symm h]
  | cons p rest iht =>
      by_cases hp : p.1 = k₂
      · simp [dictGet, hp]
      · simp [dictGet, hp, iht]

theorem head_filter_eq_find {α : Type} (p : α → Bool) :
    ∀ l : List α, (l.filter p).head? = l.find? p
  | [] => rfl
  | x :: xs => by
      by_cases h : p x
      · simp [List.filter_cons, List.find?_cons, h]
      · simp [List.filter_cons, List.find?_cons, h, head_filter_eq_find p xs]

/-- Claim C1, counterexample: with both files present, `mtime = 0`, `now = 5`
and `ttl = 5` the age `now - mtime` equals the TTL, so the claim demands
`true`; the code computes `mtime + ttl > now`, which is false at the
boundary, and returns `false`. -/
theorem is_cache_valid_boundary_cex :
    (5 : Int) - 0 ≤ 5 ∧ is_cache_valid true true 0 5 5 = false :=
  ⟨by decide, by decide⟩

/-- Claim C1, amended: `is_cache_valid` returns true iff the cache file
exists, the index file exists and the cache age is strictly below the
TTL: `now - mtime < ttl`.  The boundary `now - mtime = ttl` is excluded. -/
theorem is_cache_valid_iff (cacheExists indexExists : Bool)
    (mod_time current_time cache_max_age : Int) :
    is_cache_valid cacheExists indexExists mod_time current_time cache_max_age = true ↔
      (cacheExists = true ∧ indexExists = true ∧
        current_time - mod_time < cache_max_age) := by
  unfold is_cache_valid
  cases cacheExists <;> cases indexExists <;>
    by_cases h : mod_time + cache_max_age > current_time <;>
      simp [h] <;> omega

/-- Claim C2: after a build from the empty inventory, an address has an index
entry iff it has a hostvars entry iff it appears in some pushed hosts
list, and each holds exactly when some Running environment contains a
node with that (non-null) address.  Skipped environments and nodes
contribute nothing and do not block their siblings. -/
theorem build_hosts_exactly_running (s : Settings) (envs : List EnvironmentInfo) (x : String) :
    (dictGet (build_inventory s envs).index x ≠ none ↔ runningAddr envs x)
  ∧ (dictGet (build_inventory s envs).inventory.hostvars x ≠ none ↔ runningAddr envs x)
  ∧ (memAnyGroup (build_inventory s envs).inventory x ↔ runningAddr envs x) := by
  have h := refresh_onto_mem s envs emptyBuildState x
  have h2 : ¬ memAnyGroup emptyBuildState.inventory x := by
    simp [memAnyGroup, emptyBuildState, _empty_inventory]
  have hb : build_inventory s envs = refresh_onto s emptyBuildState envs := rfl
  refine ⟨?_, ?_, ?_⟩
  · rw [hb, h.1]
    simp [dictGet, emptyBuildState]
  · rw [hb, h.2.1]
    simp [dictGet, emptyBuildState, _empty_inventory]
  · rw [hb, h.2.2]
    simp [h2]

/-- Claim C3: `map_node_class` returns the value of the first table entry (in
table order) whose key is a prefix of the node type, `"unknown"` when no
entry matches, and in particular `"proxy"` (not `"db"`) for the
documented example. -/
theorem map_node_class_first_match :
    (∀ (table : List (String × String)) (nodeType : String) (kv : String × String),
        table.find? (fun kv => startswith nodeType kv.1) = some kv →
        map_node_class table nodeType = kv.2)
  ∧ (∀ (table : List (String × String)) (nodeType : String),
        table.find? (fun kv => startswith nodeType kv.1) = none →
        map_node_class table nodeType = "unknown")
  ∧ map_node_class [("cp", "proxy"), ("cp.sql", "db")] "cp.sql.master" = "proxy" := by
  refine ⟨?_, ?_, ?_⟩
  · intro table nodeType kv h
    have hh : (table.filter (fun kv => startswith nodeType kv.1)).head? = some kv := by
      rw [head_filter_eq_find]; exact h
    unfold map_node_class
    cases hf : table.filter (fun kv => startswith nodeType kv.1) with
    | nil => rw [hf] at hh; simp at hh
    | cons q qs =>
        rw [hf] at hh
        simp only [List.head?_cons, Option.some.injEq] at hh
        subst hh
        simp [hf]
  · intro table nodeType h
    have hh : (table.filter (fun kv => startswith nodeType kv.1)).head? = none := by
      rw [head_filter_eq_find]; exact h
    have hf : table.filter (fun kv => startswith nodeType kv.1) = [] :=
      List.head?_eq_none_iff.mp hh
    unfold map_node_class
    simp [hf]
  · rfl

/-- Witness for claim C3: the matching and non-matching branches at concrete
inputs. -/
theorem map_node_class_first_match_witness :
    (([("cp", "proxy"), ("cp.sql", "db")] :
        List (String × String)).find? (fun kv => startswith "cp.sql.master" kv.1)
          = some ("cp", "proxy")
      ∧ map_node_class [("cp", "proxy"), ("cp.sql", "db")] "cp.sql.master" = "proxy")
  ∧ (([("db", "sql")] : List (String × String)).find?
        (fun kv => startswith "cp.app" kv.1) = none
      ∧ map_node_class [("db", "sql")] "cp.app" = "unknown") :=
  ⟨⟨by decide, map_node_class_first_match.1 _ "cp.sql.master" ("cp", "proxy") (by decide)⟩,
   ⟨by decide, map_node_class_first_match.2.1 _ "cp.app" (by decide)⟩⟩

/-- Claim C4: `push` creates a plain list group for an absent key, appends at
the end of a plain group, appends into the `hosts` list of a dict-shaped
group (never converting one shape into the other), leaves other keys
untouched, and therefore preserves push order, as in the documented
two-push example. -/
theorem push_spec :
    (∀ (d : List (String × Group)) (key a : String),
        (dictGet d key = none → dictGet (push d key a) key = some (.plain [a]))
      ∧ (∀ hs, dictGet d key = some (.plain hs) →
            dictGet (push d key a) key = some (.plain (hs ++ [a])))
      ∧ (∀ hs md, dictGet d key = some (.withMeta hs md) →
            dictGet (push d key a) key = some (.withMeta (hs ++ [a]) md))
      ∧ (∀ k₂, k₂ ≠ key → dictGet (push d key a) k₂ = dictGet d k₂))
  ∧ push (push [] "g" "a") "g" "b" = [("g", Group.plain ["a", "b"])] := by
  refine ⟨?_, by decide⟩
  intro d key a
  refine ⟨?_, ?_, ?_, ?_⟩
  · intro h
    rw [push_miss a h, dictGet_append_single_self d key _ h]
  · intro hs h
    rw [push_hit a h, dictGet_dictInsert_self]
    rfl
  · intro hs md h
    rw [push_hit a h, dictGet_dictInsert_self]
    rfl
  · intro k₂ hk
    cases h : dictGet d key with
    | none => rw [push_miss a h, dictGet_append_single_ne d key k₂ _ hk]
    | some g => rw [push_hit a h, dictGet_dictInsert_ne d key k₂ _ hk]

/-- Witness for claim C4: each branch of `push_spec` exercised at concrete
dictionaries. -/
theorem push_spec_witness :
    (dictGet ([] : List (String × Group)) "g" = none ∧
      dictGet (push [] "g" "a") "g" = some (.plain ["a"]))
  ∧ (dictGet [("g", Group.plain ["x"])] "g" = some (.plain ["x"]) ∧
      dictGet (push [("g", Group.plain ["x"])] "g" "a") "g"
        = some (.plain (["x"] ++ ["a"])))
  ∧ (dictGet [("g", Group.withMeta ["x"] [("m", "1")])] "g"
        = some (.withMeta ["x"] [("m", "1")]) ∧
      dictGet (push [("g", Group.withMeta ["x"] [("m", "1")])] "g" "a") "g"
        = some (.withMeta (["x"] ++ ["a"]) [("m", "1")]))
  ∧ (("h" : String) ≠ "g" ∧
      dictGet (push [("g", Group.plain ["x"])] "g" "a") "h"
        = dictGet [("g", Group.plain ["x"])] "h") :=
  ⟨⟨rfl, (push_spec.1 [] "g" "a").1 rfl⟩,
   ⟨rfl, (push_spec.1 [("g", Group.plain ["x"])] "g" "a").2.1 ["x"] rfl⟩,
   ⟨rfl, (push_spec.1 [("g", Group.withMeta ["x"] [("m", "1")])] "g" "a").2.2.1
      ["x"] [("m", "1")] rfl⟩,
   ⟨by decide, (push_spec.1 [("g", Group.plain ["x"])] "g" "a").2.2.2 "h" (by decide)⟩⟩


/-- Claim C5, counterexample: an environment whose domain and short domain
are the reserved key `_meta` (with node-type and node-class grouping
off) produces a hostvars entry for `10.0.0.1` but no group at all — the
address was appended into a `hosts` list inside the `_meta` dict — so
the group/hostvars set equality fails. -/
theorem meta_domain_breaks_group_invariant :
    dictGet (build_inventory metaSettings [metaEnv]).inventory.hostvars "10.0.0.1" ≠ none
  ∧ (build_inventory metaSettings [metaEnv]).inventory.groups = []
  ∧ (build_inventory metaSettings [metaEnv]).inventory.metaHosts = ["10.0.0.1", "10.0.0.1"] := by
  refine ⟨by decide, by decide, by decide⟩

/-- Claim C5, amended: provided no pushed group key is the reserved key
`_meta` — no Running environment has domain or short domain `_meta`, and
no grouped node type or mapped node class is `_meta` — an address
appears in some group of the snapshot iff it has a hostvars entry. -/
theorem hostvars_groups_agree (s : Settings) (envs : List EnvironmentInfo)
    (hmeta : noMetaKeys s envs) (x : String) :
    (∃ p ∈ (build_inventory s envs).inventory.groups, x ∈ p.2.hosts) ↔
      dictGet (build_inventory s envs).inventory.hostvars x ≠ none := by
  have hb : build_inventory s envs = refresh_onto s emptyBuildState envs := rfl
  have h := refresh_onto_mem s envs emptyBuildState x
  have hm : (build_inventory s envs).inventory.metaHosts = [] := by
    rw [hb, refresh_onto_metaHosts s envs emptyBuildState hmeta]
    rfl
  have hgroups : (∃ p ∈ (build_inventory s envs).inventory.groups, x ∈ p.2.hosts) ↔
      memAnyGroup (build_inventory s envs).inventory x := by
    simp [memAnyGroup, hm]
  rw [hgroups]
  have hmg : memAnyGroup (build_inventory s envs).inventory x ↔ runningAddr envs x := by
    rw [hb, h.2.2]
    simp [memAnyGroup, emptyBuildState, _empty_inventory]
  have hhv : dictGet (build_inventory s envs).inventory.hostvars x ≠ none ↔
      runningAddr envs x := by
    rw [hb, h.2.1]
    simp [dictGet, emptyBuildState, _empty_inventory]
  rw [hmg, hhv]

/-- Witness for claim C5: the amended equivalence at the end-to-end demo fixture. -/
theorem hostvars_groups_agree_witness :
    noMetaKeys demoSettings demoEnvs ∧
    ((∃ p ∈ (build_inventory demoSettings demoEnvs).inventory.groups,
        "10.0.0.1" ∈ p.2.hosts) ↔
      dictGet (build_inventory demoSettings demoEnvs).inventory.hostvars "10.0.0.1" ≠ none) :=
  ⟨by unfold noMetaKeys; decide,
   hostvars_groups_agree demoSettings demoEnvs (by unfold noMetaKeys; decide) "10.0.0.1"⟩

/-- Claim C6: for a host absent from the index both before and after the
refresh, `get_host_info` performs exactly one
`do_api_calls_update_cache` refresh, raises nothing, and returns the
serialised empty dict `{}` as a successful result. -/
theorem get_host_info_unknown_host (s : Settings) (st : BuildState)
    (envs : List EnvironmentInfo) (host : String)
    (h1 : dictGet st.index host = none)
    (h2 : dictGet (refresh_onto s st envs).index host = none) :
    get_host_info s st envs host = (.output "\x7b\x7d", 1) := by
  simp only [get_host_info, h1, h2]
  rfl

/-- Witness for claim C6: an unknown host against the empty state and an empty
provider listing. -/
theorem get_host_info_unknown_host_witness :
    dictGet emptyBuildState.index "203.0.113.9" = none ∧
    dictGet (refresh_onto demoSettings emptyBuildState []).index "203.0.113.9" = none ∧
    get_host_info demoSettings emptyBuildState [] "203.0.113.9" = (.output "\x7b\x7d", 1) :=
  ⟨rfl, rfl, get_host_info_unknown_host demoSettings emptyBuildState [] "203.0.113.9" rfl rfl⟩

/-- Claim C7: for an address present in the index the script evaluates
`self.get_node`, a method the class never defines, so the lookup raises
`AttributeError` instead of returning HostVars; and
`get_host_info_dict_from_node` is a bare `return`, yielding `None` for
every node, so even with a `get_node` the printed result would be
`null`, not a non-empty variable bag. -/
theorem get_host_info_known_host_crashes :
    (get_host_info demoSettings (build_inventory demoSettings demoEnvs) demoEnvs
        "10.0.0.1").1 = .attributeError "get_node"
  ∧ ∀ (node : String), get_host_info_dict_from_node node = none :=
  ⟨by decide, fun _ => rfl⟩

/-- Claim C8: serialising a snapshot value with `write_to_cache` and reading
it back through `json.loads` reproduces the value exactly (for the safe,
canonically key-ordered values the script persists), and the serialised
text does not depend on the in-memory order of object members with
distinct keys (the output is key-sorted). -/
theorem cache_roundtrip :
    (∀ v : JValue, safeV v = true → isCanonV v = true →
        load_index_from_cache (write_to_cache v) = some v)
  ∧ (∀ l₁ l₂ : List (String × JValue), l₁.Perm l₂ → (l₁.map Prod.fst).Nodup →
        write_to_cache (.obj l₁) = write_to_cache (.obj l₂)) := by
  constructor
  · intro v hs hc
    have hcv : canon v = v := (canon_id (jsize v)).1 v le_rfl hc
    show json_loads (json_format_dict v true) = some v
    rw [show json_format_dict v true = (⟨renderV 0 (canon v)⟩ : String) from rfl, hcv]
    exact json_loads_renderV v hs
  · intro l₁ l₂ hp hnd
    show json_format_dict (.obj l₁) true = json_format_dict (.obj l₂) true
    rw [show json_format_dict (JValue.obj l₁) true
          = (⟨renderV 0 (canon (.obj l₁))⟩ : String) from rfl,
        show json_format_dict (JValue.obj l₂) true
          = (⟨renderV 0 (canon (.obj l₂))⟩ : String) from rfl,
        canon_obj_perm hp hnd]

/-- Witness for claim C8: the demo snapshot round-trips, and two orderings of the
same two members serialise identically. -/
theorem cache_roundtrip_witness :
    (safeV demoSnapshotJson = true ∧ isCanonV demoSnapshotJson = true ∧
      load_index_from_cache (write_to_cache demoSnapshotJson) = some demoSnapshotJson)
  ∧ (([("b", JValue.str "y"), ("a", JValue.str "x")].Perm
        [("a", JValue.str "x"), ("b", JValue.str "y")]) ∧
      (([("b", JValue.str "y"), ("a", JValue.str "x")].map Prod.fst).Nodup) ∧
      write_to_cache (.obj [("b", .str "y"), ("a", .str "x")])
        = write_to_cache (.obj [("a", .str "x"), ("b", .str "y")])) :=
  ⟨⟨by decide, by decide,
    cache_roundtrip.1 demoSnapshotJson (by decide) (by decide)⟩,
   ⟨List.Perm.swap ("a", JValue.str "x") ("b", JValue.str "y") [], by decide,
    cache_roundtrip.2 [("b", JValue.str "y"), ("a", JValue.str "x")]
      [("a", JValue.str "x"), ("b", JValue.str "y")]
      (List.Perm.swap ("a", JValue.str "x") ("b", JValue.str "y") []) (by decide)⟩⟩

/-- Claim C9: after a successful login, every path through `get_environments`
— fetch succeeded, provider returned a non-zero result, or the fetch
raised — invokes `logout` before the method completes; it is the last
provider operation performed (the `finally` clause). -/
theorem get_environments_always_logout (s : Settings) (st : BuildState) (f : FetchOutcome) :
    ProviderOp.logout ∈ (get_environments s st f).ops ∧
    (get_environments s st f).ops.getLast? = some ProviderOp.logout := by
  cases f with
  | response r =>
      by_cases h : r.result = 0
      · simp [get_environments, h]
      · simp [get_environments, h]
  | urlError => simp [get_environments]

/-- Claim C10: the `group_by_environment_id` toggle read by `read_settings` is
never consulted again: two builds over the same provider data whose
settings differ only in that toggle produce identical inventories
(groups, hostvars, meta) and identical indexes. -/
theorem group_by_environment_id_no_effect (b₁ b₂ nt nc : Bool)
    (cm : List (String × String)) (gw port : String) (envs : List EnvironmentInfo) :
    build_inventory ⟨b₁, nt, nc, cm, gw, port⟩ envs
      = build_inventory ⟨b₂, nt, nc, cm, gw, port⟩ envs := rfl

end Jelastic
